import Mathlib

/-
  Verification development for the DSKYpoly polynomial root-solving core
  (degrees 2 through 5: quadratic formula, Cardano, Ferrari, quintic
  classification, Newton-Raphson refinement).

  The C sources under src/ are wrappers and test harnesses; every solver
  algorithm itself lives in external x86-64 assembly routines that are only
  declared (`extern`) there.  Those routines are therefore modelled here
  from the specification's own description of each algorithm (sections 4.1
  to 4.6 of the spec); each such definition carries a doc comment starting
  with "Modelled from the spec:".  Floating-point doubles are modelled as
  exact real numbers (and exact rationals for the Newton iteration, so
  that concrete runs can be evaluated by `decide`).
-/

open scoped Classical

namespace DSKYpoly

/-- A reported root: real part, imaginary part and multiplicity
(spec section 3, ComplexRoot). -/
structure ComplexRoot where
  re : ℝ
  im : ℝ
  mult : ℕ

/-- The complex value of a reported root. -/
noncomputable def ComplexRoot.toC (r : ComplexRoot) : ℂ :=
  (r.re : ℂ) + (r.im : ℂ) * Complex.I

/-- Error taxonomy of the spec (section 7). -/
inductive SolveError where
  | DegenerateInput
  | InvalidArgument
  | ResolventDegenerate
  | DivisionByZero
  | NonConvergence
deriving DecidableEq

/-- Total multiplicity of a root list (spec section 3, RootSet invariant). -/
def multSum (rs : List ComplexRoot) : ℕ :=
  (rs.map (fun r => r.mult)).sum

/-- The root list of a successful solve, `[]` on error. -/
def rootsOf (res : Except SolveError (List ComplexRoot)) : List ComplexRoot :=
  match res with
  | .ok rs => rs
  | .error _ => []

/-- A solve succeeded. -/
def isOk (res : Except SolveError (List ComplexRoot)) : Prop :=
  match res with
  | .ok _ => True
  | .error _ => False

/-- RootSet shape contract: success with total multiplicity `n` and at most
`n` entries. -/
def okCount (res : Except SolveError (List ComplexRoot)) (n : ℕ) : Prop :=
  match res with
  | .ok rs => multSum rs = n ∧ rs.length ≤ n
  | .error _ => False

/-- Modelled from the spec: the assembly routine `solve_poly_2` (declared in
src/src/main.c, body absent from src/) per spec section 4.2: discriminant
D = b^2 - 4ac; D > eps gives two distinct real roots (-b ± sqrt D)/(2a);
|D| ≤ eps gives one real root -b/(2a) of multiplicity 2; D < -eps gives a
complex-conjugate pair with real part -b/(2a) and imaginary parts
± sqrt(-D)/(2a); a = 0 is rejected as DegenerateInput. -/
noncomputable def solve_poly_2 (eps a b c : ℝ) :
    Except SolveError (List ComplexRoot) :=
  if a = 0 then .error .DegenerateInput
  else
    let D := b ^ 2 - 4 * a * c
    if eps < D then
      .ok [⟨(-b + Real.sqrt D) / (2 * a), 0, 1⟩,
           ⟨(-b - Real.sqrt D) / (2 * a), 0, 1⟩]
    else if |D| ≤ eps then
      .ok [⟨-b / (2 * a), 0, 2⟩]
    else
      .ok [⟨-b / (2 * a), Real.sqrt (-D) / (2 * a), 1⟩,
           ⟨-b / (2 * a), -(Real.sqrt (-D) / (2 * a)), 1⟩]

/-- Vieta sum of a root list: sum of each root times its multiplicity. -/
noncomputable def vietaSum (rs : List ComplexRoot) : ℂ :=
  (rs.map (fun r => (r.mult : ℂ) * r.toC)).sum

/-- Vieta product of a root list: product of each root raised to its
multiplicity. -/
noncomputable def vietaProd (rs : List ComplexRoot) : ℂ :=
  (rs.map (fun r => r.toC ^ r.mult)).prod

theorem solve_poly_2_ok_shape (eps a b c : ℝ) (ha : a ≠ 0) :
    okCount (solve_poly_2 eps a b c) 2 := by
  unfold solve_poly_2
  rw [if_neg ha]
  by_cases h1 : eps < b ^ 2 - 4 * a * c
  · rw [if_pos h1]
    simp [okCount, multSum]
  · rw [if_neg h1]
    by_cases h2 : |b ^ 2 - 4 * a * c| ≤ eps
    · rw [if_pos h2]
      simp [okCount, multSum]
    · rw [if_neg h2]
      simp [okCount, multSum]

@[simp]
theorem toC_mk (x y : ℝ) (m : ℕ) :
    ComplexRoot.toC ⟨x, y, m⟩ = (x : ℂ) + (y : ℂ) * Complex.I := rfl

theorem solve_poly_2_branch_pos (eps a b c : ℝ) (ha : a ≠ 0)
    (h1 : eps < b ^ 2 - 4 * a * c) :
    solve_poly_2 eps a b c =
      .ok [⟨(-b + Real.sqrt (b ^ 2 - 4 * a * c)) / (2 * a), 0, 1⟩,
           ⟨(-b - Real.sqrt (b ^ 2 - 4 * a * c)) / (2 * a), 0, 1⟩] := by
  unfold solve_poly_2
  rw [if_neg ha, if_pos h1]

theorem solve_poly_2_branch_zero (eps a b c : ℝ) (ha : a ≠ 0)
    (h2 : |b ^ 2 - 4 * a * c| ≤ eps) :
    solve_poly_2 eps a b c = .ok [⟨-b / (2 * a), 0, 2⟩] := by
  unfold solve_poly_2
  have h1 : ¬ eps < b ^ 2 - 4 * a * c := by
    have := abs_le.1 h2
    linarith [this.2]
  rw [if_neg ha, if_neg h1, if_pos h2]

theorem solve_poly_2_branch_neg (eps a b c : ℝ) (ha : a ≠ 0) (heps : 0 ≤ eps)
    (h3 : b ^ 2 - 4 * a * c < -eps) :
    solve_poly_2 eps a b c =
      .ok [⟨-b / (2 * a), Real.sqrt (-(b ^ 2 - 4 * a * c)) / (2 * a), 1⟩,
           ⟨-b / (2 * a), -(Real.sqrt (-(b ^ 2 - 4 * a * c)) / (2 * a)), 1⟩] := by
  unfold solve_poly_2
  have h1 : ¬ eps < b ^ 2 - 4 * a * c := by linarith
  have h2 : ¬ |b ^ 2 - 4 * a * c| ≤ eps := by
    rw [abs_le]
    intro h
    linarith [h.1]
  rw [if_neg ha, if_neg h1, if_neg h2]

/-- Claim C2: for every quadratic (a,b,c) with a ≠ 0, the quadratic solver
succeeds (no failure mode other than DegenerateInput), returns exactly two
roots counting multiplicity, and classifies by the discriminant
D = b^2 - 4ac: if D > eps, the two distinct real roots (-b ± sqrt D)/(2a);
if |D| ≤ eps, the single real root -b/(2a) of multiplicity 2; and if
D < -eps, the complex-conjugate pair with real part -b/(2a) and imaginary
parts ± sqrt(-D)/(2a). -/
theorem C2_quadratic_classification (eps a b c : ℝ) (ha : a ≠ 0)
    (heps : 0 < eps) :
    okCount (solve_poly_2 eps a b c) 2 ∧
    (eps < b ^ 2 - 4 * a * c →
      rootsOf (solve_poly_2 eps a b c) =
        [⟨(-b + Real.sqrt (b ^ 2 - 4 * a * c)) / (2 * a), 0, 1⟩,
         ⟨(-b - Real.sqrt (b ^ 2 - 4 * a * c)) / (2 * a), 0, 1⟩] ∧
      (-b + Real.sqrt (b ^ 2 - 4 * a * c)) / (2 * a) ≠
        (-b - Real.sqrt (b ^ 2 - 4 * a * c)) / (2 * a)) ∧
    (|b ^ 2 - 4 * a * c| ≤ eps →
      rootsOf (solve_poly_2 eps a b c) = [⟨-b / (2 * a), 0, 2⟩]) ∧
    (b ^ 2 - 4 * a * c < -eps →
      rootsOf (solve_poly_2 eps a b c) =
        [⟨-b / (2 * a), Real.sqrt (-(b ^ 2 - 4 * a * c)) / (2 * a), 1⟩,
         ⟨-b / (2 * a), -(Real.sqrt (-(b ^ 2 - 4 * a * c)) / (2 * a)), 1⟩] ∧
      Real.sqrt (-(b ^ 2 - 4 * a * c)) / (2 * a) ≠ 0) := by
  refine ⟨solve_poly_2_ok_shape eps a b c ha, ?_, ?_, ?_⟩
  · intro h1
    rw [solve_poly_2_branch_pos eps a b c ha h1]
    refine ⟨rfl, ?_⟩
    have hD : (0 : ℝ) < b ^ 2 - 4 * a * c := lt_trans heps h1
    have hs : 0 < Real.sqrt (b ^ 2 - 4 * a * c) := Real.sqrt_pos.2 hD
    intro h
    rw [div_eq_div_iff (by simpa using ha) (by simpa using ha)] at h
    have : Real.sqrt (b ^ 2 - 4 * a * c) * (2 * a) = 0 := by ring_nf at h ⊢; linarith
    rcases mul_eq_zero.1 this with h' | h'
    · exact absurd h' (ne_of_gt hs)
    · simp at h'
      exact ha h'
  · intro h2
    rw [solve_poly_2_branch_zero eps a b c ha h2]
    rfl
  · intro h3
    rw [solve_poly_2_branch_neg eps a b c ha (le_of_lt heps) h3]
    refine ⟨rfl, ?_⟩
    have hD : (0 : ℝ) < -(b ^ 2 - 4 * a * c) := by linarith
    have hs : 0 < Real.sqrt (-(b ^ 2 - 4 * a * c)) := Real.sqrt_pos.2 hD
    exact div_ne_zero (ne_of_gt hs) (by simpa using ha)

/-- Witness for C2 at the concrete quadratic x^2 - 5 with eps = 1. -/
theorem C2_witness :
    ((1 : ℝ) ≠ 0 ∧ (0 : ℝ) < 1) ∧
    (okCount (solve_poly_2 1 1 0 (-5)) 2 ∧
    ((1 : ℝ) < 0 ^ 2 - 4 * 1 * (-5) →
      rootsOf (solve_poly_2 1 1 0 (-5)) =
        [⟨(-0 + Real.sqrt (0 ^ 2 - 4 * 1 * (-5))) / (2 * 1), 0, 1⟩,
         ⟨(-0 - Real.sqrt (0 ^ 2 - 4 * 1 * (-5))) / (2 * 1), 0, 1⟩] ∧
      (-0 + Real.sqrt (0 ^ 2 - 4 * 1 * (-5))) / (2 * 1) ≠
        (-0 - Real.sqrt (0 ^ 2 - 4 * 1 * (-5))) / (2 * 1)) ∧
    (|(0 : ℝ) ^ 2 - 4 * 1 * (-5)| ≤ 1 →
      rootsOf (solve_poly_2 1 1 0 (-5)) = [⟨-0 / (2 * 1), 0, 2⟩]) ∧
    ((0 : ℝ) ^ 2 - 4 * 1 * (-5) < -1 →
      rootsOf (solve_poly_2 1 1 0 (-5)) =
        [⟨-0 / (2 * 1), Real.sqrt (-(0 ^ 2 - 4 * 1 * (-5))) / (2 * 1), 1⟩,
         ⟨-0 / (2 * 1), -(Real.sqrt (-(0 ^ 2 - 4 * 1 * (-5))) / (2 * 1)), 1⟩] ∧
      Real.sqrt (-(0 ^ 2 - 4 * 1 * (-5))) / (2 * 1) ≠ 0)) :=
  ⟨⟨by norm_num, by norm_num⟩,
   C2_quadratic_classification 1 1 0 (-5) (by norm_num) (by norm_num)⟩

/-- Counterexample to claim C8 as stated: for the quadratic with
a = 1/10, b = 0, c = -1/400000000 and eps = 1/1000000000 the discriminant
is D = 1/1000000000, so |D| ≤ eps and the solver returns the double root 0;
the Vieta product of the returned roots is 0, but c/a = -1/40000000, a
distance of 1/40000000 > eps away, so r1*r2 is NOT within eps of c/a. -/
theorem C8_counterexample :
    rootsOf (solve_poly_2 (1/1000000000) (1/10) 0 (-1/400000000)) =
      [⟨0, 0, 2⟩] ∧
    ¬ Complex.abs
        (vietaProd (rootsOf (solve_poly_2 (1/1000000000) (1/10) 0
            (-1/400000000))) -
          (((-1/400000000 : ℝ) / (1/10 : ℝ) : ℝ) : ℂ)) ≤ 1/1000000000 := by
  have hroots : rootsOf (solve_poly_2 (1/1000000000) (1/10) 0
      (-1/400000000)) = [⟨0, 0, 2⟩] := by
    rw [solve_poly_2_branch_zero (1/1000000000) (1/10) 0 (-1/400000000)
      (by norm_num) (by rw [abs_le]; constructor <;> norm_num)]
    norm_num [rootsOf]
  refine ⟨hroots, ?_⟩
  rw [hroots]
  have hprod : vietaProd [(⟨0, 0, 2⟩ : ComplexRoot)] = 0 := by
    simp [vietaProd]
  rw [hprod, zero_sub]
  rw [map_neg_eq_map, Complex.abs_ofReal]
  rw [not_le]
  have hv : ((-1/400000000 : ℝ) / (1/10 : ℝ)) = -(1/40000000) := by norm_num
  rw [hv, abs_neg, abs_of_nonneg (by norm_num : (0:ℝ) ≤ 1/40000000)]
  norm_num

/-- Claim C8 (amended): for every quadratic (a,b,c) with a ≠ 0 and
tolerance eps ≥ 0, the returned roots satisfy Vieta's relations in the
following form: the multiplicity-weighted sum always equals -b/a exactly;
the multiplicity-weighted product equals c/a exactly in the two branches
with eps < D or D < -eps; and in the |D| ≤ eps branch the product is
within eps/(4 a^2) of c/a (not within eps in general, as the
counterexample shows). -/
theorem C8_vieta_amended (eps a b c : ℝ) (ha : a ≠ 0) (heps : 0 ≤ eps) :
    vietaSum (rootsOf (solve_poly_2 eps a b c)) = ((-b / a : ℝ) : ℂ) ∧
    ((eps < b ^ 2 - 4 * a * c ∨ b ^ 2 - 4 * a * c < -eps) →
      vietaProd (rootsOf (solve_poly_2 eps a b c)) = ((c / a : ℝ) : ℂ)) ∧
    (|b ^ 2 - 4 * a * c| ≤ eps →
      Complex.abs (vietaProd (rootsOf (solve_poly_2 eps a b c)) -
        ((c / a : ℝ) : ℂ)) ≤ eps / (4 * a ^ 2)) := by
  by_cases h1 : eps < b ^ 2 - 4 * a * c
  · -- branch with two distinct real roots
    have hroots := solve_poly_2_branch_pos eps a b c ha h1
    have hDpos : 0 ≤ b ^ 2 - 4 * a * c := le_trans heps (le_of_lt h1)
    have hs2 : Real.sqrt (b ^ 2 - 4 * a * c) ^ 2 = b ^ 2 - 4 * a * c :=
      Real.sq_sqrt hDpos
    refine ⟨?_, ?_, ?_⟩
    · rw [hroots]
      have hre : (-b + Real.sqrt (b ^ 2 - 4 * a * c)) / (2 * a) +
          (-b - Real.sqrt (b ^ 2 - 4 * a * c)) / (2 * a) = -b / a := by
        field_simp
        ring
      simp only [rootsOf, vietaSum, List.map_cons, List.map_nil,
        List.sum_cons, List.sum_nil, toC_mk, Nat.cast_one, one_mul,
        Complex.ofReal_zero, zero_mul, add_zero]
      exact_mod_cast hre
    · intro _
      rw [hroots]
      have hkey : (-b + Real.sqrt (b ^ 2 - 4 * a * c)) / (2 * a) *
          ((-b - Real.sqrt (b ^ 2 - 4 * a * c)) / (2 * a)) = c / a := by
        rw [div_mul_div_comm]
        have hnum : (-b + Real.sqrt (b ^ 2 - 4 * a * c)) *
            (-b - Real.sqrt (b ^ 2 - 4 * a * c)) = 4 * a * c := by
          have hx : (-b + Real.sqrt (b ^ 2 - 4 * a * c)) *
              (-b - Real.sqrt (b ^ 2 - 4 * a * c))
              = b ^ 2 - Real.sqrt (b ^ 2 - 4 * a * c) ^ 2 := by ring
          rw [hx, hs2]
          ring
        rw [hnum]
        field_simp
        ring
      simp only [rootsOf, vietaProd, List.map_cons, List.map_nil,
        List.prod_cons, List.prod_nil, toC_mk, pow_one, mul_one,
        Complex.ofReal_zero, zero_mul, add_zero]
      exact_mod_cast hkey
    · intro h2
      exfalso
      have := abs_le.1 h2
      linarith [this.2]
  · by_cases h2 : |b ^ 2 - 4 * a * c| ≤ eps
    · -- double-root branch
      have hroots := solve_poly_2_branch_zero eps a b c ha h2
      refine ⟨?_, ?_, ?_⟩
      · rw [hroots]
        have hre : (2 : ℝ) * (-b / (2 * a)) = -b / a := by
          field_simp
          ring
        simp only [rootsOf, vietaSum, List.map_cons, List.map_nil,
          List.sum_cons, List.sum_nil, toC_mk, Complex.ofReal_zero,
          zero_mul, add_zero]
        exact_mod_cast hre
      · rintro (h | h)
        · exact absurd h h1
        · exfalso
          have := abs_le.1 h2
          linarith [this.1]
      · intro _
        rw [hroots]
        have hdiff : (-b / (2 * a)) ^ 2 - c / a =
            (b ^ 2 - 4 * a * c) / (4 * a ^ 2) := by
          field_simp
          ring
        simp only [rootsOf, vietaProd, List.map_cons, List.map_nil,
          List.prod_cons, List.prod_nil, toC_mk, mul_one,
          Complex.ofReal_zero, zero_mul, add_zero]
        rw [← Complex.ofReal_pow, ← Complex.ofReal_sub, Complex.abs_ofReal,
          hdiff]
        have h4a : (0 : ℝ) < 4 * a ^ 2 := by positivity
        rw [abs_div, abs_of_pos h4a]
        exact (div_le_div_iff_of_pos_right h4a).mpr h2
    · -- conjugate-pair branch
      have h3 : b ^ 2 - 4 * a * c < -eps := by
        by_contra hcon
        push_neg at hcon
        exact h2 (abs_le.2 ⟨hcon, le_of_not_lt h1⟩)
      have hroots := solve_poly_2_branch_neg eps a b c ha heps h3
      have hDneg : 0 ≤ -(b ^ 2 - 4 * a * c) := by linarith
      have hs2 : Real.sqrt (-(b ^ 2 - 4 * a * c)) ^ 2 =
          -(b ^ 2 - 4 * a * c) := Real.sq_sqrt hDneg
      refine ⟨?_, ?_, ?_⟩
      · rw [hroots]
        have hre : (2 : ℝ) * (-b / (2 * a)) = -b / a := by
          field_simp
          ring
        simp only [rootsOf, vietaSum, List.map_cons, List.map_nil,
          List.sum_cons, List.sum_nil, toC_mk, Nat.cast_one, one_mul,
          Complex.ofReal_neg, add_zero]
        rw [show ((-b / (2 * a) : ℝ) : ℂ) +
            ((Real.sqrt (-(b ^ 2 - 4 * a * c)) / (2 * a) : ℝ) : ℂ) *
              Complex.I +
            (((-b / (2 * a) : ℝ) : ℂ) +
              -(((Real.sqrt (-(b ^ 2 - 4 * a * c)) / (2 * a) : ℝ) : ℂ)) *
                Complex.I) =
            2 * ((-b / (2 * a) : ℝ) : ℂ) from by ring]
        exact_mod_cast hre
      · intro _
        rw [hroots]
        have hkey : (-b / (2 * a)) ^ 2 +
            (Real.sqrt (-(b ^ 2 - 4 * a * c)) / (2 * a)) ^ 2 = c / a := by
          rw [div_pow, div_pow, hs2]
          field_simp
          ring
        simp only [rootsOf, vietaProd, List.map_cons, List.map_nil,
          List.prod_cons, List.prod_nil, toC_mk, pow_one, mul_one,
          Complex.ofReal_neg]
        rw [show (((-b / (2 * a) : ℝ) : ℂ) +
            ((Real.sqrt (-(b ^ 2 - 4 * a * c)) / (2 * a) : ℝ) : ℂ) *
              Complex.I) *
            (((-b / (2 * a) : ℝ) : ℂ) +
              -(((Real.sqrt (-(b ^ 2 - 4 * a * c)) / (2 * a) : ℝ) : ℂ)) *
                Complex.I) =
            ((-b / (2 * a) : ℝ) : ℂ) ^ 2 +
              ((Real.sqrt (-(b ^ 2 - 4 * a * c)) / (2 * a) : ℝ) : ℂ) ^ 2
            from by
          ring_nf
          rw [Complex.I_sq]
          ring ]
        exact_mod_cast hkey
      · intro h2'
        exact absurd h2' h2

/-- Witness for the amended C8 at the concrete quadratic x^2 - 5 with
eps = 1. -/
theorem C8_witness :
    ((1 : ℝ) ≠ 0 ∧ (0 : ℝ) ≤ 1) ∧
    (vietaSum (rootsOf (solve_poly_2 1 1 0 (-5))) = ((-0 / 1 : ℝ) : ℂ) ∧
    ((1 : ℝ) < 0 ^ 2 - 4 * 1 * (-5) ∨ (0 : ℝ) ^ 2 - 4 * 1 * (-5) < -1 →
      vietaProd (rootsOf (solve_poly_2 1 1 0 (-5))) = ((-5 / 1 : ℝ) : ℂ)) ∧
    (|(0 : ℝ) ^ 2 - 4 * 1 * (-5)| ≤ 1 →
      Complex.abs (vietaProd (rootsOf (solve_poly_2 1 1 0 (-5))) -
        ((-5 / 1 : ℝ) : ℂ)) ≤ 1 / (4 * 1 ^ 2))) :=
  ⟨⟨by norm_num, by norm_num⟩,
   C8_vieta_amended 1 1 0 (-5) (by norm_num) (by norm_num)⟩

/-- The odd real cube root, as used by Cardano's radical formula. -/
noncomputable def cbrt (x : ℝ) : ℝ :=
  if 0 ≤ x then x ^ ((1 : ℝ) / 3) else -((-x) ^ ((1 : ℝ) / 3))

theorem rpow_third_cube (x : ℝ) (hx : 0 ≤ x) :
    (x ^ ((1 : ℝ) / 3)) ^ 3 = x := by
  rw [← Real.rpow_natCast (x ^ ((1 : ℝ) / 3)) 3, ← Real.rpow_mul hx]
  norm_num

theorem cbrt_cube (x : ℝ) : cbrt x ^ 3 = x := by
  unfold cbrt
  by_cases hx : 0 ≤ x
  · rw [if_pos hx]
    exact rpow_third_cube x hx
  · rw [if_neg hx]
    push_neg at hx
    have hx' : 0 ≤ -x := by linarith
    have h := rpow_third_cube (-x) hx'
    have hexp : (-((-x) ^ ((1 : ℝ) / 3))) ^ 3
        = -(((-x) ^ ((1 : ℝ) / 3)) ^ 3) := by ring
    rw [hexp, h, neg_neg]

theorem cube_rpow_third (y : ℝ) (hy : 0 ≤ y) :
    (y ^ 3) ^ ((1 : ℝ) / 3) = y := by
  rw [← Real.rpow_natCast y 3, ← Real.rpow_mul hy]
  norm_num

theorem cbrt_of_cube (y : ℝ) : cbrt (y ^ 3) = y := by
  rcases le_or_lt 0 y with hy | hy
  · rw [cbrt, if_pos (by positivity), cube_rpow_third y hy]
  · have hy3 : ¬ (0 : ℝ) ≤ y ^ 3 := by
      push_neg
      have hy0 : y ≠ 0 := ne_of_lt hy
      have h2 : 0 < y ^ 2 := by positivity
      nlinarith
    rw [cbrt, if_neg hy3]
    have hneg : -(y ^ 3) = (-y) ^ 3 := by ring
    rw [hneg, cube_rpow_third (-y) (by linarith), neg_neg]

theorem cbrt_mul (x y : ℝ) : cbrt (x * y) = cbrt x * cbrt y := by
  have key : ∀ u v : ℝ, 0 ≤ u → 0 ≤ v → cbrt (u * v) = cbrt u * cbrt v := by
    intro u v hu hv
    rw [cbrt, cbrt, cbrt, if_pos (mul_nonneg hu hv), if_pos hu, if_pos hv]
    exact Real.mul_rpow hu hv
  have keyMixed : ∀ u v : ℝ, 0 ≤ u → v < 0 → cbrt (u * v) = cbrt u * cbrt v := by
    intro u v hu hv
    rcases eq_or_lt_of_le hu with hu0 | hupos
    · rw [← hu0, zero_mul]
      have hc0 : cbrt 0 = 0 := by
        rw [cbrt, if_pos le_rfl, Real.zero_rpow (by norm_num)]
      rw [hc0, zero_mul]
    · have huv : u * v < 0 := mul_neg_of_pos_of_neg hupos hv
      rw [cbrt, cbrt, cbrt, if_neg (not_le.mpr huv), if_pos hu,
        if_neg (not_le.mpr hv)]
      have hrw : -(u * v) = u * (-v) := by ring
      rw [hrw, Real.mul_rpow hu (by linarith)]
      ring
  rcases le_or_lt 0 x with hx | hx
  · rcases le_or_lt 0 y with hy | hy
    · exact key x y hx hy
    · exact keyMixed x y hx hy
  · rcases le_or_lt 0 y with hy | hy
    · rw [mul_comm, keyMixed y x hy hx, mul_comm]
    · have hneg : ∀ u : ℝ, u < 0 → cbrt (-u) = -cbrt u := by
        intro u hu
        rw [cbrt, cbrt, if_pos (by linarith : (0:ℝ) ≤ -u),
          if_neg (not_le.mpr hu)]
        ring
      have h1 : x * y = (-x) * (-y) := by ring
      rw [h1, key (-x) (-y) (by linarith) (by linarith),
        hneg x hx, hneg y hy]
      ring

/-- Depressed-cubic coefficient p of spec section 4.3
(substitution x = t - b/(3a) in a x^3 + b x^2 + c x + d). -/
noncomputable def cubic_p (a b c : ℝ) : ℝ :=
  (3 * a * c - b ^ 2) / (3 * a ^ 2)

/-- Depressed-cubic coefficient q of spec section 4.3. -/
noncomputable def cubic_q (a b c d : ℝ) : ℝ :=
  (2 * b ^ 3 - 9 * a * b * c + 27 * a ^ 2 * d) / (27 * a ^ 3)

/-- Cardano discriminant (q/2)^2 + (p/3)^3 of spec section 4.3. -/
noncomputable def cubic_disc (a b c d : ℝ) : ℝ :=
  (cubic_q a b c d / 2) ^ 2 + (cubic_p a b c / 3) ^ 3

/-- First Cardano cube-root term u = cbrt(-q/2 + sqrt disc). -/
noncomputable def cardano_u (a b c d : ℝ) : ℝ :=
  cbrt (-(cubic_q a b c d) / 2 + Real.sqrt (cubic_disc a b c d))

/-- Second Cardano cube-root term v = cbrt(-q/2 - sqrt disc). -/
noncomputable def cardano_v (a b c d : ℝ) : ℝ :=
  cbrt (-(cubic_q a b c d) / 2 - Real.sqrt (cubic_disc a b c d))

/-- The real Cardano root t1 = u + v of the depressed cubic. -/
noncomputable def cardano_t1 (a b c d : ℝ) : ℝ :=
  cardano_u a b c d + cardano_v a b c d

/-- Modelled from the spec: the assembly routine `solve_cubic` (declared in
src/cubic/src/main.c, body absent from src/) per spec section 4.3
(Cardano): depress via x = t - b/(3a); disc > eps gives one real root
t1 = u + v by the radical formula plus the complex-conjugate pair of the
deflated quadratic t^2 + t1 t + (p + t1^2); |disc| ≤ eps gives the
all-real multiple-root case (triple root at t = 0 when p is within
tolerance of 0, else a double root -3q/(2p) and a simple root 3q/p);
disc < -eps gives three distinct real roots by the trigonometric form
t_k = 2 sqrt(-p/3) cos(phi/3 - 2 pi k/3) with
phi = acos(3q/(p sqrt(-12 p))); all t are shifted back by -b/(3a). -/
noncomputable def solve_cubic (eps a b c d : ℝ) :
    Except SolveError (List ComplexRoot) :=
  if a = 0 then .error .DegenerateInput
  else
    let p := cubic_p a b c
    let q := cubic_q a b c d
    let shift := -b / (3 * a)
    if eps < cubic_disc a b c d then
      let t1 := cardano_t1 a b c d
      let s := Real.sqrt (3 * t1 ^ 2 + 4 * p)
      .ok [⟨t1 + shift, 0, 1⟩,
           ⟨-t1 / 2 + shift, s / 2, 1⟩,
           ⟨-t1 / 2 + shift, -(s / 2), 1⟩]
    else if |cubic_disc a b c d| ≤ eps then
      if |p| ≤ eps then
        .ok [⟨shift, 0, 3⟩]
      else
        .ok [⟨-3 * q / (2 * p) + shift, 0, 2⟩, ⟨3 * q / p + shift, 0, 1⟩]
    else
      let m := Real.sqrt (-p / 3)
      let phi := Real.arccos (3 * q / (p * Real.sqrt (-12 * p)))
      .ok ((List.range 3).map fun k =>
        ⟨2 * m * Real.cos (phi / 3 - 2 * Real.pi * k / 3) + shift, 0, 1⟩)

/-- Complex evaluation of the real cubic a x^3 + b x^2 + c x + d. -/
noncomputable def cpoly3 (a b c d : ℝ) (z : ℂ) : ℂ :=
  (a : ℂ) * z ^ 3 + (b : ℂ) * z ^ 2 + (c : ℂ) * z + (d : ℂ)

/-- Every root of the list is an exact complex root of the cubic. -/
def exactCubicRoots (a b c d : ℝ) (rs : List ComplexRoot) : Prop :=
  ∀ r ∈ rs, cpoly3 a b c d r.toC = 0

/-- Every root of the list has cubic residual magnitude below eps. -/
def cubicResidualsBelow (eps a b c d : ℝ) (rs : List ComplexRoot) : Prop :=
  ∀ r ∈ rs, Complex.abs (cpoly3 a b c d r.toC) < eps

theorem cubic_depress (a b c d : ℝ) (ha : a ≠ 0) (t : ℂ) :
    cpoly3 a b c d (t + ((-b / (3 * a) : ℝ) : ℂ)) =
      (a : ℂ) * (t ^ 3 + ((cubic_p a b c : ℝ) : ℂ) * t +
        ((cubic_q a b c d : ℝ) : ℂ)) := by
  have haC : (a : ℂ) ≠ 0 := Complex.ofReal_ne_zero.mpr ha
  unfold cpoly3 cubic_p cubic_q
  push_cast
  field_simp
  ring

theorem cardano_t1_root (a b c d : ℝ)
    (hD : 0 ≤ cubic_disc a b c d) :
    cardano_t1 a b c d ^ 3 + cubic_p a b c * cardano_t1 a b c d +
      cubic_q a b c d = 0 := by
  set p := cubic_p a b c
  set q := cubic_q a b c d
  set s := Real.sqrt (cubic_disc a b c d) with hs
  have hs2 : s ^ 2 = cubic_disc a b c d := Real.sq_sqrt hD
  have hu : cardano_u a b c d ^ 3 = -q / 2 + s := cbrt_cube _
  have hv : cardano_v a b c d ^ 3 = -q / 2 - s := cbrt_cube _
  have huv : cardano_u a b c d * cardano_v a b c d = -p / 3 := by
    have hprod : (-q / 2 + s) * (-q / 2 - s) = (-p / 3) ^ 3 := by
      have : (-q / 2 + s) * (-q / 2 - s) = (q / 2) ^ 2 - s ^ 2 := by ring
      rw [this, hs2]
      unfold cubic_disc
      ring
    have := cbrt_mul (-q / 2 + s) (-q / 2 - s)
    rw [hprod, cbrt_of_cube] at this
    unfold cardano_u cardano_v
    rw [← this]
  unfold cardano_t1
  linear_combination hu + hv + (3 * (cardano_u a b c d + cardano_v a b c d)) * huv

theorem cardano_s_sq (a b c d : ℝ)
    (hD : 0 ≤ cubic_disc a b c d) :
    3 * cardano_t1 a b c d ^ 2 + 4 * cubic_p a b c =
      3 * (cardano_u a b c d - cardano_v a b c d) ^ 2 := by
  set p := cubic_p a b c
  set q := cubic_q a b c d
  set s := Real.sqrt (cubic_disc a b c d) with hs
  have hs2 : s ^ 2 = cubic_disc a b c d := Real.sq_sqrt hD
  have huv : cardano_u a b c d * cardano_v a b c d = -p / 3 := by
    have hprod : (-q / 2 + s) * (-q / 2 - s) = (-p / 3) ^ 3 := by
      have : (-q / 2 + s) * (-q / 2 - s) = (q / 2) ^ 2 - s ^ 2 := by ring
      rw [this, hs2]
      unfold cubic_disc
      ring
    have := cbrt_mul (-q / 2 + s) (-q / 2 - s)
    rw [hprod, cbrt_of_cube] at this
    unfold cardano_u cardano_v
    rw [← this]
  unfold cardano_t1
  linear_combination 12 * huv

theorem solve_cubic_branch_pos (eps a b c d : ℝ) (ha : a ≠ 0)
    (h1 : eps < cubic_disc a b c d) :
    solve_cubic eps a b c d =
      .ok [⟨cardano_t1 a b c d + -b / (3 * a), 0, 1⟩,
           ⟨-cardano_t1 a b c d / 2 + -b / (3 * a),
             Real.sqrt (3 * cardano_t1 a b c d ^ 2 + 4 * cubic_p a b c) / 2,
             1⟩,
           ⟨-cardano_t1 a b c d / 2 + -b / (3 * a),
             -(Real.sqrt (3 * cardano_t1 a b c d ^ 2 + 4 * cubic_p a b c) / 2),
             1⟩] := by
  unfold solve_cubic
  rw [if_neg ha, if_pos h1]

theorem solve_cubic_branch_double (eps a b c d : ℝ) (ha : a ≠ 0)
    (h1 : ¬ eps < cubic_disc a b c d)
    (h2 : |cubic_disc a b c d| ≤ eps)
    (h3 : ¬ |cubic_p a b c| ≤ eps) :
    solve_cubic eps a b c d =
      .ok [⟨-3 * cubic_q a b c d / (2 * cubic_p a b c) + -b / (3 * a), 0, 2⟩,
           ⟨3 * cubic_q a b c d / cubic_p a b c + -b / (3 * a), 0, 1⟩] := by
  unfold solve_cubic
  rw [if_neg ha, if_neg h1, if_pos h2, if_neg h3]

/-- Counterexample to claim C1 as stated: for the cubic
x^3 - (3/10)x + 3/50 with eps = 1/1000 the Cardano discriminant is
-1/10000, so |disc| ≤ eps and the solver takes the double/simple-root
branch of spec 4.3; the returned double root 3/10 has residual
|P(3/10)| = 3/1000 > eps, violating the round-trip residual law
|P(root)| < eps. -/
theorem C1_counterexample :
    rootsOf (solve_cubic (1/1000) 1 0 (-3/10) (3/50)) =
      [⟨3/10, 0, 2⟩, ⟨-3/5, 0, 1⟩] ∧
    ¬ Complex.abs (cpoly3 1 0 (-3/10) (3/50)
        (ComplexRoot.toC ⟨3/10, 0, 2⟩)) < 1/1000 := by
  have hp : cubic_p 1 0 (-3/10) = -3/10 := by
    unfold cubic_p
    norm_num
  have hq : cubic_q 1 0 (-3/10) (3/50) = 3/50 := by
    unfold cubic_q
    norm_num
  have hdisc : cubic_disc 1 0 (-3/10) (3/50) = -(1/10000) := by
    unfold cubic_disc
    rw [hp, hq]
    norm_num
  constructor
  · rw [solve_cubic_branch_double (1/1000) 1 0 (-3/10) (3/50)
      (by norm_num)
      (by rw [hdisc]; norm_num)
      (by rw [hdisc, abs_of_nonpos (by norm_num)]; norm_num)
      (by rw [hp, abs_of_nonpos (by norm_num)]; norm_num)]
    simp only [rootsOf]
    rw [hp, hq]
    norm_num
  · have hval : cpoly3 1 0 (-3/10) (3/50) (ComplexRoot.toC ⟨3/10, 0, 2⟩) =
        ((-3/1000 : ℝ) : ℂ) := by
      rw [toC_mk]
      unfold cpoly3
      push_cast
      ring_nf
    rw [hval, Complex.abs_ofReal, abs_of_nonpos (by norm_num)]
    norm_num

/-- Modelled from the spec (section 4.1, Complex Arithmetic): all n-th
roots of a complex number, the k-th root (k < n) having modulus
|z|^(1/n) and angle (arg z + 2 pi k)/n. -/
noncomputable def nth_roots_c (n : ℕ) (z : ℂ) : List ℂ :=
  (List.range n).map fun k : ℕ =>
    ((Complex.abs z ^ ((1 : ℝ) / n) : ℝ) : ℂ) *
      Complex.exp (((Complex.arg z + 2 * Real.pi * (k : ℝ)) / n : ℝ) *
        Complex.I)

/-- Both square roots of a returned quadratic root, keeping its
multiplicity: the biquadratic path of spec 4.4 applies 4.1 with n = 2. -/
noncomputable def croot2 (r : ComplexRoot) : List ComplexRoot :=
  (nth_roots_c 2 r.toC).map fun w => ⟨w.re, w.im, r.mult⟩

/-- Real resolvent-cubic roots y with y + p/2 > 0 (the admissible-root
selection of spec 4.4). -/
noncomputable def resolventCandidates (p : ℝ) :
    List ComplexRoot → List ℝ
  | [] => []
  | r :: rs =>
    if r.im = 0 ∧ 0 < r.re + p / 2 then r.re :: resolventCandidates p rs
    else resolventCandidates p rs

/-- Tie-break of spec 4.4: prefer the real resolvent root of greatest
magnitude. -/
noncomputable def pickMaxAbs (y : ℝ) : List ℝ → ℝ
  | [] => y
  | z :: zs => if |y| < |z| then pickMaxAbs z zs else pickMaxAbs y zs

/-- Depressed-quartic coefficient p (x = t - b/(4a), spec 4.4). -/
noncomputable def quartic_p (a b c : ℝ) : ℝ :=
  (8 * a * c - 3 * b ^ 2) / (8 * a ^ 2)

/-- Depressed-quartic coefficient q (spec 4.4). -/
noncomputable def quartic_q (a b c d : ℝ) : ℝ :=
  (b ^ 3 - 4 * a * b * c + 8 * a ^ 2 * d) / (8 * a ^ 3)

/-- Depressed-quartic coefficient r (spec 4.4). -/
noncomputable def quartic_r (a b c d e : ℝ) : ℝ :=
  (-3 * b ^ 4 + 16 * a * b ^ 2 * c - 64 * a ^ 2 * b * d +
    256 * a ^ 3 * e) / (256 * a ^ 4)

/-- Back-substitution: shift every root's real part by s. -/
def shiftRoots (s : ℝ) (rs : List ComplexRoot) : List ComplexRoot :=
  rs.map fun r => ⟨r.re + s, r.im, r.mult⟩

/-- Modelled from the spec: the assembly routines solve_poly_4_reference /
solve_poly_4_production (declared in src/quartic/src/main.c, bodies absent
from src/), as the single canonical Ferrari algorithm of spec 4.4:
reject a = 0; biquadratic case (b = 0 and d = 0) substitutes u = x^2,
solves the quadratic in u via 4.2 and takes both square roots of each u
root via 4.1 with n = 2; the general case depresses to
t^4 + p t^2 + q t + r, solves the resolvent cubic
8y^3 + 8py^2 + (2p^2 - 8r)y - q^2 = 0 via 4.3, selects an admissible real
resolvent root (greatest magnitude among those with y + p/2 > 0, else
ResolventDegenerate), splits into two quadratics in t solved via 4.2, and
back-substitutes by -b/(4a). -/
noncomputable def solve_poly_4 (eps a b c d e : ℝ) :
    Except SolveError (List ComplexRoot) :=
  if a = 0 then .error .DegenerateInput
  else if b = 0 ∧ d = 0 then
    match solve_poly_2 eps a c e with
    | .error err => .error err
    | .ok us => .ok ((us.map croot2).flatten)
  else
    match solve_cubic eps 8 (8 * quartic_p a b c)
        (2 * quartic_p a b c ^ 2 - 8 * quartic_r a b c d e)
        (-(quartic_q a b c d ^ 2)) with
    | .error err => .error err
    | .ok ys =>
      match resolventCandidates (quartic_p a b c) ys with
      | [] => .error .ResolventDegenerate
      | y0 :: rest =>
        match solve_poly_2 eps 1 (Real.sqrt (2 * pickMaxAbs y0 rest))
            (quartic_p a b c / 2 + pickMaxAbs y0 rest -
              quartic_q a b c d /
                (2 * Real.sqrt (2 * pickMaxAbs y0 rest))),
          solve_poly_2 eps 1 (-Real.sqrt (2 * pickMaxAbs y0 rest))
            (quartic_p a b c / 2 + pickMaxAbs y0 rest +
              quartic_q a b c d /
                (2 * Real.sqrt (2 * pickMaxAbs y0 rest))) with
        | .ok l1, .ok l2 => .ok (shiftRoots (-b / (4 * a)) (l1 ++ l2))
        | .error err, _ => .error err
        | .ok _, .error err => .error err

/-- Root records of the monomial quintic case: the 5 fifth roots of -f/a
(spec 4.5 case 1), each of multiplicity 1. -/
noncomputable def monomialRoots (a f : ℝ) : List ComplexRoot :=
  (nth_roots_c 5 ((-f / a : ℝ) : ℂ)).map fun w => ⟨w.re, w.im, 1⟩

/-- Modelled from the spec: the assembly routine solve_poly_5_special
(declared in src/quintic/src/main.c, body absent from src/) per spec 4.5:
reject a = 0; classify in order: monomial (b,c,d,e all within tolerance
of 0) returning the 5 fifth roots of -f/a with method "monomial";
factorizable (f within tolerance of 0) factoring out x, recursing into
the quartic solver and appending the root 0 (returning the partial root 0
alone if the quartic path degenerates to the iterative fallback);
Bring-Jerrard binomial (b,c,d within tolerance of 0, e not) returning 0
roots with method "binomial-unsolvable-by-radicals"; otherwise 0 roots
with method "general". -/
noncomputable def solve_poly_5_special (eps a b c d e f : ℝ) :
    Except SolveError (List ComplexRoot × String) :=
  if a = 0 then .error .DegenerateInput
  else if |b| ≤ eps ∧ |c| ≤ eps ∧ |d| ≤ eps ∧ |e| ≤ eps then
    .ok (monomialRoots a f, "monomial")
  else if |f| ≤ eps then
    match solve_poly_4 eps a b c d e with
    | .ok qs => .ok (qs ++ [⟨0, 0, 1⟩], "factorizable")
    | .error _ => .ok ([⟨0, 0, 1⟩], "factorizable")
  else if |b| ≤ eps ∧ |c| ≤ eps ∧ |d| ≤ eps then
    .ok ([], "binomial-unsolvable-by-radicals")
  else
    .ok ([], "general")

/-- The a = 0 guard in main of src/cubic/src/main.c: the coefficient is
rejected before solve_cubic is invoked, so no root output is produced. -/
noncomputable def cubic_main (eps a b c d : ℝ) :
    Except SolveError (List ComplexRoot) :=
  if a = 0 then .error .DegenerateInput else solve_cubic eps a b c d

/-- The a = 0 guard in run_interactive_mode of src/quartic/src/main.c:
the coefficient is rejected before either quartic routine is invoked. -/
noncomputable def run_interactive_quartic (eps a b c d e : ℝ) :
    Except SolveError (List ComplexRoot) :=
  if a = 0 then .error .DegenerateInput else solve_poly_4 eps a b c d e


theorem solve_cubic_ok_shape (eps a b c d : ℝ) (ha : a ≠ 0) :
    okCount (solve_cubic eps a b c d) 3 := by
  unfold solve_cubic
  rw [if_neg ha]
  by_cases h1 : eps < cubic_disc a b c d
  · rw [if_pos h1]
    simp [okCount, multSum]
  · rw [if_neg h1]
    by_cases h2 : |cubic_disc a b c d| ≤ eps
    · rw [if_pos h2]
      by_cases h3 : |cubic_p a b c| ≤ eps
      · rw [if_pos h3]
        simp [okCount, multSum]
      · rw [if_neg h3]
        simp [okCount, multSum]
    · rw [if_neg h2]
      simp [okCount, multSum, List.map_map, Function.comp, List.range_succ]

theorem solve_poly_2_cases (eps a b c : ℝ) (ha : a ≠ 0) :
    ∃ l, solve_poly_2 eps a b c = .ok l ∧ multSum l = 2 ∧ l.length ≤ 2 := by
  have h := solve_poly_2_ok_shape eps a b c ha
  cases hres : solve_poly_2 eps a b c with
  | ok l =>
    rw [hres] at h
    exact ⟨l, rfl, h⟩
  | error err =>
    rw [hres] at h
    exact absurd h (by simp [okCount])

theorem solve_cubic_cases (eps a b c d : ℝ) (ha : a ≠ 0) :
    ∃ l, solve_cubic eps a b c d = .ok l ∧ multSum l = 3 ∧ l.length ≤ 3 := by
  have h := solve_cubic_ok_shape eps a b c d ha
  cases hres : solve_cubic eps a b c d with
  | ok l =>
    rw [hres] at h
    exact ⟨l, rfl, h⟩
  | error err =>
    rw [hres] at h
    exact absurd h (by simp [okCount])

theorem multSum_append (l1 l2 : List ComplexRoot) :
    multSum (l1 ++ l2) = multSum l1 + multSum l2 := by
  simp [multSum]

theorem multSum_shiftRoots (s : ℝ) (l : List ComplexRoot) :
    multSum (shiftRoots s l) = multSum l := by
  induction l with
  | nil => rfl
  | cons r l ih =>
    simp only [multSum, shiftRoots, List.map_cons, List.sum_cons] at *
    omega

theorem length_shiftRoots (s : ℝ) (l : List ComplexRoot) :
    (shiftRoots s l).length = l.length := by
  simp [shiftRoots]

theorem length_nth_roots_c (n : ℕ) (z : ℂ) :
    (nth_roots_c n z).length = n := by
  rw [nth_roots_c, List.length_map, List.length_range]

theorem multSum_croot2 (r : ComplexRoot) : multSum (croot2 r) = 2 * r.mult := by
  simp [croot2, nth_roots_c, multSum, List.map_map, Function.comp,
    List.range_succ]
  ring

theorem length_croot2 (r : ComplexRoot) : (croot2 r).length = 2 := by
  simp [croot2, length_nth_roots_c]

theorem multSum_flatten_croot2 (us : List ComplexRoot) :
    multSum ((us.map croot2).flatten) = 2 * multSum us := by
  induction us with
  | nil => simp [multSum]
  | cons u us ih =>
    simp only [List.map_cons, List.flatten_cons, multSum_append, ih,
      multSum_croot2]
    simp [multSum]
    ring

theorem length_flatten_croot2 (us : List ComplexRoot) :
    ((us.map croot2).flatten).length = 2 * us.length := by
  induction us with
  | nil => simp
  | cons u us ih =>
    simp only [List.map_cons, List.flatten_cons, List.length_append, ih,
      length_croot2, List.length_cons]
    ring

/-- Length contract for the quintic classifier result. -/
def okLenAtMost (res : Except SolveError (List ComplexRoot × String))
    (n : ℕ) : Prop :=
  match res with
  | .ok (rs, _) => rs.length ≤ n
  | .error _ => True

theorem solve_poly_4_shape (eps a b c d e : ℝ) (ha : a ≠ 0) :
    solve_poly_4 eps a b c d e = .error .ResolventDegenerate ∨
      okCount (solve_poly_4 eps a b c d e) 4 := by
  unfold solve_poly_4
  rw [if_neg ha]
  by_cases hbq : b = 0 ∧ d = 0
  · rw [if_pos hbq]
    obtain ⟨us, hus, hm, hl⟩ := solve_poly_2_cases eps a c e ha
    rw [hus]
    right
    refine ⟨?_, ?_⟩
    · rw [multSum_flatten_croot2, hm]
    · rw [length_flatten_croot2]
      omega
  · rw [if_neg hbq]
    obtain ⟨ys, hys, _, _⟩ := solve_cubic_cases eps 8
      (8 * quartic_p a b c)
      (2 * quartic_p a b c ^ 2 - 8 * quartic_r a b c d e)
      (-(quartic_q a b c d ^ 2)) (by norm_num)
    rw [hys]
    dsimp only
    cases hcand : resolventCandidates (quartic_p a b c) ys with
    | nil => exact Or.inl rfl
    | cons y0 rest =>
      dsimp only
      obtain ⟨l1, hl1, hm1, hlen1⟩ := solve_poly_2_cases eps 1
        (Real.sqrt (2 * pickMaxAbs y0 rest))
        (quartic_p a b c / 2 + pickMaxAbs y0 rest -
          quartic_q a b c d / (2 * Real.sqrt (2 * pickMaxAbs y0 rest)))
        (by norm_num)
      obtain ⟨l2, hl2, hm2, hlen2⟩ := solve_poly_2_cases eps 1
        (-Real.sqrt (2 * pickMaxAbs y0 rest))
        (quartic_p a b c / 2 + pickMaxAbs y0 rest +
          quartic_q a b c d / (2 * Real.sqrt (2 * pickMaxAbs y0 rest)))
        (by norm_num)
      rw [hl1, hl2]
      dsimp only
      right
      refine ⟨?_, ?_⟩
      · rw [multSum_shiftRoots, multSum_append, hm1, hm2]
      · rw [length_shiftRoots, List.length_append]
        omega

theorem solve_poly_5_len (eps a b c d e f : ℝ) :
    okLenAtMost (solve_poly_5_special eps a b c d e f) 5 := by
  unfold solve_poly_5_special
  by_cases ha : a = 0
  · rw [if_pos ha]
    trivial
  · rw [if_neg ha]
    by_cases hmono : |b| ≤ eps ∧ |c| ≤ eps ∧ |d| ≤ eps ∧ |e| ≤ eps
    · rw [if_pos hmono]
      show (monomialRoots a f).length ≤ 5
      simp [monomialRoots, length_nth_roots_c]
    · rw [if_neg hmono]
      by_cases hf : |f| ≤ eps
      · rw [if_pos hf]
        cases h4 : solve_poly_4 eps a b c d e with
        | ok qs =>
          dsimp only
          show (qs ++ [(⟨0, 0, 1⟩ : ComplexRoot)]).length ≤ 5
          rcases solve_poly_4_shape eps a b c d e ha with herr | hok
          · rw [h4] at herr
            exact absurd herr (by simp)
          · rw [h4] at hok
            have : qs.length ≤ 4 := hok.2
            simp only [List.length_append, List.length_singleton]
            omega
        | error err =>
          dsimp only
          show ([(⟨0, 0, 1⟩ : ComplexRoot)]).length ≤ 5
          simp
      · rw [if_neg hf]
        by_cases hbin : |b| ≤ eps ∧ |c| ≤ eps ∧ |d| ≤ eps
        · rw [if_pos hbin]
          show ([] : List ComplexRoot).length ≤ 5
          simp
        · rw [if_neg hbin]
          show ([] : List ComplexRoot).length ≤ 5
          simp



/-- Claim C3: for every supported degree, a polynomial whose leading
coefficient is 0 is rejected with DegenerateInput before any root
computation: each modelled solver, as well as the a = 0 guards actually
present in src/ (cubic main, quartic run_interactive_mode), returns the
DegenerateInput error and produces no root output. -/
theorem C3_degenerate_rejection
    (eps b2 c2 b3 c3 d3 b4 c4 d4 e4 b5 c5 d5 e5 f5 : ℝ) :
    solve_poly_2 eps 0 b2 c2 = .error .DegenerateInput ∧
    solve_cubic eps 0 b3 c3 d3 = .error .DegenerateInput ∧
    solve_poly_4 eps 0 b4 c4 d4 e4 = .error .DegenerateInput ∧
    solve_poly_5_special eps 0 b5 c5 d5 e5 f5 = .error .DegenerateInput ∧
    cubic_main eps 0 b3 c3 d3 = .error .DegenerateInput ∧
    run_interactive_quartic eps 0 b4 c4 d4 e4 = .error .DegenerateInput ∧
    rootsOf (solve_poly_2 eps 0 b2 c2) = [] ∧
    rootsOf (solve_cubic eps 0 b3 c3 d3) = [] ∧
    rootsOf (solve_poly_4 eps 0 b4 c4 d4 e4) = [] := by
  have h2 : solve_poly_2 eps 0 b2 c2 = .error .DegenerateInput := by
    unfold solve_poly_2
    rw [if_pos rfl]
  have h3 : solve_cubic eps 0 b3 c3 d3 = .error .DegenerateInput := by
    unfold solve_cubic
    rw [if_pos rfl]
  have h4 : solve_poly_4 eps 0 b4 c4 d4 e4 = .error .DegenerateInput := by
    unfold solve_poly_4
    rw [if_pos rfl]
  have h5 : solve_poly_5_special eps 0 b5 c5 d5 e5 f5 =
      .error .DegenerateInput := by
    unfold solve_poly_5_special
    rw [if_pos rfl]
  refine ⟨h2, h3, h4, h5, ?_, ?_, ?_, ?_, ?_⟩
  · unfold cubic_main
    rw [if_pos rfl]
  · unfold run_interactive_quartic
    rw [if_pos rfl]
  · rw [h2]
    rfl
  · rw [h3]
    rfl
  · rw [h4]
    rfl

/-- Claim C4: every returned RootSet has length at most the polynomial
degree, and the solvers claiming completeness (quadratic, cubic, and the
quartic closed-form paths) return roots whose multiplicities sum exactly
to the degree; the quartic may instead signal ResolventDegenerate (the
iterative-fallback trigger), and the quintic classifier's special-case
and partial paths return at most 5 roots. -/
theorem C4_rootset_invariant (eps a2 b2 c2 a3 b3 c3 d3 a4 b4 c4 d4 e4
    a5 b5 c5 d5 e5 f5 : ℝ)
    (h2 : a2 ≠ 0) (h3 : a3 ≠ 0) (h4 : a4 ≠ 0) :
    okCount (solve_poly_2 eps a2 b2 c2) 2 ∧
    okCount (solve_cubic eps a3 b3 c3 d3) 3 ∧
    (solve_poly_4 eps a4 b4 c4 d4 e4 = .error .ResolventDegenerate ∨
      okCount (solve_poly_4 eps a4 b4 c4 d4 e4) 4) ∧
    okLenAtMost (solve_poly_5_special eps a5 b5 c5 d5 e5 f5) 5 :=
  ⟨solve_poly_2_ok_shape eps a2 b2 c2 h2,
   solve_cubic_ok_shape eps a3 b3 c3 d3 h3,
   solve_poly_4_shape eps a4 b4 c4 d4 e4 h4,
   solve_poly_5_len eps a5 b5 c5 d5 e5 f5⟩

/-- Witness for C4 at concrete polynomials of each degree (x^2 - 5,
x^3 - 2, the biquadratic x^4 - 10x^2 + 9 and the monomial quintic
x^5 - 32), all with eps = 1/1000. -/
theorem C4_witness :
    ((1 : ℝ) ≠ 0) ∧
    (okCount (solve_poly_2 (1/1000) 1 0 (-5)) 2 ∧
     okCount (solve_cubic (1/1000) 1 0 0 (-2)) 3 ∧
     (solve_poly_4 (1/1000) 1 0 (-10) 0 9 = .error .ResolventDegenerate ∨
       okCount (solve_poly_4 (1/1000) 1 0 (-10) 0 9) 4) ∧
     okLenAtMost (solve_poly_5_special (1/1000) 1 0 0 0 0 (-32)) 5) :=
  ⟨by norm_num,
   C4_rootset_invariant (1/1000) 1 0 (-5) 1 0 0 (-2) 1 0 (-10) 0 9
     1 0 0 0 0 (-32) (by norm_num) (by norm_num) (by norm_num)⟩



theorem toC_reim (z : ℂ) (m : ℕ) :
    ComplexRoot.toC ⟨z.re, z.im, m⟩ = z := by
  rw [toC_mk, Complex.re_add_im]

theorem rpow_one_div_pow (x : ℝ) (n : ℕ) (hx : 0 ≤ x) (hn : n ≠ 0) :
    (x ^ ((1 : ℝ) / n)) ^ n = x := by
  rw [← Real.rpow_natCast (x ^ ((1 : ℝ) / n)) n, ← Real.rpow_mul hx,
    one_div, inv_mul_cancel₀ (by exact_mod_cast hn : (n : ℝ) ≠ 0),
    Real.rpow_one]

theorem nth_roots_c_pow (n : ℕ) (hn : n ≠ 0) (z w : ℂ)
    (hw : w ∈ nth_roots_c n z) : w ^ n = z := by
  rw [nth_roots_c] at hw
  simp only [List.mem_map, List.mem_range] at hw
  obtain ⟨k, hk, rfl⟩ := hw
  rw [mul_pow, ← Complex.exp_nat_mul]
  have habs : (((Complex.abs z ^ ((1 : ℝ) / n) : ℝ) : ℂ)) ^ n
      = ((Complex.abs z : ℝ) : ℂ) := by
    rw [← Complex.ofReal_pow, rpow_one_div_pow _ n (Complex.abs.nonneg z) hn]
  have hnC : ((n : ℕ) : ℂ) ≠ 0 := by exact_mod_cast hn
  have hangle : (n : ℂ) *
      (((Complex.arg z + 2 * Real.pi * (k : ℝ)) / n : ℝ) * Complex.I)
      = (Complex.arg z : ℂ) * Complex.I +
        (k : ℤ) * (2 * (Real.pi : ℂ) * Complex.I) := by
    push_cast
    field_simp
    ring
  rw [habs, hangle, Complex.exp_add, Complex.exp_int_mul_two_pi_mul_I,
    mul_one, Complex.abs_mul_exp_arg_mul_I]

theorem solve_poly_5_monomial (eps a b c d e f : ℝ) (ha : a ≠ 0)
    (heps : 0 ≤ eps) (hb : b = 0) (hc : c = 0) (hd : d = 0) (he : e = 0) :
    solve_poly_5_special eps a b c d e f =
      .ok (monomialRoots a f, "monomial") := by
  unfold solve_poly_5_special
  rw [if_neg ha, if_pos]
  exact ⟨by rw [hb]; simpa using heps, by rw [hc]; simpa using heps,
    by rw [hd]; simpa using heps, by rw [he]; simpa using heps⟩

/-- Every monomial-path root is an exact fifth root of -f/a and an exact
root of the quintic a x^5 + f (which is the full polynomial when
b = c = d = e = 0). -/
def monomialRootsExact (a f : ℝ) : Prop :=
  ∀ r ∈ monomialRoots a f, r.toC ^ 5 = ((-f / a : ℝ) : ℂ) ∧
    (a : ℂ) * r.toC ^ 5 + (f : ℂ) = 0

theorem monomialRootsExact_holds (a f : ℝ) (ha : a ≠ 0) :
    monomialRootsExact a f := by
  intro r hr
  unfold monomialRoots at hr
  simp only [List.mem_map] at hr
  obtain ⟨w, hw, rfl⟩ := hr
  have h5 : ComplexRoot.toC ⟨w.re, w.im, 1⟩ ^ 5 = ((-f / a : ℝ) : ℂ) := by
    rw [toC_reim]
    exact nth_roots_c_pow 5 (by norm_num) _ w hw
  refine ⟨h5, ?_⟩
  rw [h5]
  have haC : (a : ℂ) ≠ 0 := Complex.ofReal_ne_zero.mpr ha
  push_cast
  field_simp
  ring_nf

/-- Every monomial-path quintic root has residual magnitude below eps for
the monomial quintic a x^5 + f. -/
def monomialResidualsBelow (eps a f : ℝ) : Prop :=
  ∀ r ∈ monomialRoots a f,
    Complex.abs ((a : ℂ) * r.toC ^ 5 + (f : ℂ)) < eps

/-- Claim C1 (amended): on the exact closed-form branches, the round-trip
residual law holds with residual exactly 0: for every cubic with a ≠ 0,
eps > 0 and Cardano discriminant disc > eps, the solver succeeds with
exactly 3 roots counting multiplicity and every returned root is an EXACT
complex root of the original cubic; and for every monomial quintic
(a5 ≠ 0) every root returned by the classifier's monomial path is an
exact root of a5 x^5 + f5; so each such residual |P(root)| = 0 < eps.
(The claim as stated over all branches is refuted by C1_counterexample:
in the cubic |disc| ≤ eps branch the residual can exceed eps.) -/
theorem C1_cubic_exact_amended (eps a b c d a5 f5 : ℝ) (ha : a ≠ 0)
    (ha5 : a5 ≠ 0) (heps : 0 < eps) (h1 : eps < cubic_disc a b c d) :
    okCount (solve_cubic eps a b c d) 3 ∧
    exactCubicRoots a b c d (rootsOf (solve_cubic eps a b c d)) ∧
    cubicResidualsBelow eps a b c d (rootsOf (solve_cubic eps a b c d)) ∧
    monomialResidualsBelow eps a5 f5 := by
  have hD : 0 ≤ cubic_disc a b c d := le_trans (le_of_lt heps) (le_of_lt h1)
  have hroots := solve_cubic_branch_pos eps a b c d ha h1
  have ht1 := cardano_t1_root a b c d hD
  have hssq := cardano_s_sq a b c d hD
  set T := cardano_t1 a b c d with hT
  set p := cubic_p a b c with hp
  set q := cubic_q a b c d with hq
  set sv := Real.sqrt (3 * T ^ 2 + 4 * p) with hsv
  have hsnn : 0 ≤ 3 * T ^ 2 + 4 * p := by
    rw [hssq]
    positivity
  have hs2 : sv ^ 2 = 3 * T ^ 2 + 4 * p := Real.sq_sqrt hsnn
  have ht1C : ((T : ℝ) : ℂ) ^ 3 + ((p : ℝ) : ℂ) * ((T : ℝ) : ℂ) +
      ((q : ℝ) : ℂ) = 0 := by
    exact_mod_cast congrArg (fun x : ℝ => (x : ℂ)) ht1
  have hs2C : ((sv : ℝ) : ℂ) ^ 2 =
      3 * ((T : ℝ) : ℂ) ^ 2 + 4 * ((p : ℝ) : ℂ) := by
    exact_mod_cast congrArg (fun x : ℝ => (x : ℂ)) hs2
  -- depressed-level exactness transported by the substitution lemma
  have hzero : ∀ z : ℂ,
      z ^ 3 + ((p : ℝ) : ℂ) * z + ((q : ℝ) : ℂ) = 0 →
      cpoly3 a b c d (z + ((-b / (3 * a) : ℝ) : ℂ)) = 0 := by
    intro z hz
    rw [cubic_depress a b c d ha z, ← hp, ← hq, hz, mul_zero]
  have hpair : ∀ sgn : ℝ, sgn = 1 ∨ sgn = -1 →
      (-((T : ℝ) : ℂ) / 2 + ((sgn * sv : ℝ) : ℂ) / 2 * Complex.I) ^ 3 +
        ((p : ℝ) : ℂ) * (-((T : ℝ) : ℂ) / 2 +
          ((sgn * sv : ℝ) : ℂ) / 2 * Complex.I) + ((q : ℝ) : ℂ) = 0 := by
    intro sgn hsgn
    have hsgn2 : (sgn : ℝ) ^ 2 = 1 := by
      rcases hsgn with h | h <;> rw [h] <;> norm_num
    have hsgn2C : ((sgn : ℝ) : ℂ) ^ 2 = 1 := by
      exact_mod_cast congrArg (fun x : ℝ => (x : ℂ)) hsgn2
    have hquad : (-((T : ℝ) : ℂ) / 2 + ((sgn * sv : ℝ) : ℂ) / 2 *
          Complex.I) ^ 2 +
        ((T : ℝ) : ℂ) * (-((T : ℝ) : ℂ) / 2 + ((sgn * sv : ℝ) : ℂ) / 2 *
          Complex.I) +
        (((p : ℝ) : ℂ) + ((T : ℝ) : ℂ) ^ 2) = 0 := by
      push_cast
      linear_combination (-(1 : ℂ) / 4) * hs2C +
        ((((sgn : ℝ) : ℂ) ^ 2 * ((sv : ℝ) : ℂ) ^ 2) / 4) * Complex.I_sq +
        (-(((sv : ℝ) : ℂ) ^ 2) / 4) * hsgn2C
    linear_combination
      ((-((T : ℝ) : ℂ) / 2 + ((sgn * sv : ℝ) : ℂ) / 2 * Complex.I) -
        ((T : ℝ) : ℂ)) * hquad + ht1C
  have hall : exactCubicRoots a b c d (rootsOf (solve_cubic eps a b c d)) := by
    rw [hroots]
    intro r hr
    simp only [rootsOf, List.mem_cons, List.not_mem_nil, or_false] at hr
    rcases hr with h | h | h
    · subst h
      rw [toC_mk]
      rw [show ((T + -b / (3 * a) : ℝ) : ℂ) + ((0 : ℝ) : ℂ) * Complex.I =
          ((T : ℝ) : ℂ) + ((-b / (3 * a) : ℝ) : ℂ) from by push_cast; ring]
      exact hzero ((T : ℝ) : ℂ) ht1C
    · subst h
      rw [toC_mk]
      rw [show ((-T / 2 + -b / (3 * a) : ℝ) : ℂ) +
          ((sv / 2 : ℝ) : ℂ) * Complex.I =
          (-((T : ℝ) : ℂ) / 2 + ((1 * sv : ℝ) : ℂ) / 2 * Complex.I) +
            ((-b / (3 * a) : ℝ) : ℂ) from by push_cast; ring]
      exact hzero _ (hpair 1 (Or.inl rfl))
    · subst h
      rw [toC_mk]
      rw [show ((-T / 2 + -b / (3 * a) : ℝ) : ℂ) +
          ((-(sv / 2) : ℝ) : ℂ) * Complex.I =
          (-((T : ℝ) : ℂ) / 2 + ((-1 * sv : ℝ) : ℂ) / 2 * Complex.I) +
            ((-b / (3 * a) : ℝ) : ℂ) from by push_cast; ring]
      exact hzero _ (hpair (-1) (Or.inr rfl))
  refine ⟨?_, hall, ?_, ?_⟩
  · rw [hroots]
    simp [okCount, multSum]
  · intro r hr
    rw [hall r hr]
    simpa using heps
  · intro r hr
    rw [(monomialRootsExact_holds a5 f5 ha5 r hr).2]
    simpa using heps


/-- Witness for the amended C1 at the concrete cubic x^3 - 2 (its Cardano
discriminant is 1 > eps = 1/2) together with the monomial quintic
x^5 - 32. -/
theorem C1_witness :
    ((1 : ℝ) ≠ 0 ∧ (0 : ℝ) < 1/2 ∧ (1/2 : ℝ) < cubic_disc 1 0 0 (-2)) ∧
    (okCount (solve_cubic (1/2) 1 0 0 (-2)) 3 ∧
     exactCubicRoots 1 0 0 (-2) (rootsOf (solve_cubic (1/2) 1 0 0 (-2))) ∧
     cubicResidualsBelow (1/2) 1 0 0 (-2)
       (rootsOf (solve_cubic (1/2) 1 0 0 (-2))) ∧
     monomialResidualsBelow (1/2) 1 (-32)) :=
  ⟨⟨by norm_num, by norm_num,
    by unfold cubic_disc cubic_q cubic_p; norm_num⟩,
   C1_cubic_exact_amended (1/2) 1 0 0 (-2) 1 (-32) (by norm_num)
     (by norm_num) (by norm_num)
     (by unfold cubic_disc cubic_q cubic_p; norm_num)⟩

theorem monomial_32_val : ((-(-32 : ℝ) / 1 : ℝ) : ℂ) = ((32 : ℝ) : ℂ) := by
  norm_num

theorem abs32C : Complex.abs ((32 : ℝ) : ℂ) = 32 := by
  rw [Complex.abs_ofReal, abs_of_nonneg (by norm_num)]

theorem arg32C : Complex.arg ((32 : ℝ) : ℂ) = 0 :=
  Complex.arg_ofReal_of_nonneg (by norm_num)

theorem r32fifth : (32 : ℝ) ^ ((1 : ℝ) / 5) = 2 := by
  rw [show (32 : ℝ) = 2 ^ (5 : ℕ) by norm_num,
    ← Real.rpow_natCast 2 5, ← Real.rpow_mul (by norm_num)]
  norm_num

/-- The value of the k-th root record returned on the monomial path for
x^5 - 32 = 0. -/
noncomputable def root32At (k : ℕ) : ℂ :=
  ((monomialRoots 1 (-32)).getD k ⟨0, 0, 0⟩).toC

/-- All roots returned for x^5 - 32 have magnitude 2 (the magnitude check
of the claim). -/
def allAbsTwo32 : Prop :=
  ∀ r ∈ monomialRoots 1 (-32), Complex.abs r.toC = 2

/-- Consecutive roots returned for x^5 - 32 differ by the phase factor
exp(2 pi I/5): angular spacing 2 pi/5 (the spacing check of the claim). -/
def spacing32 : Prop :=
  ∀ k, k < 4 → root32At (k + 1) =
    root32At k * Complex.exp (((2 * Real.pi / 5 : ℝ) : ℂ) * Complex.I)

theorem allAbsTwo32_holds : allAbsTwo32 := by
  intro r hr
  unfold monomialRoots at hr
  rw [monomial_32_val] at hr
  simp only [List.mem_map] at hr
  obtain ⟨w, hw, rfl⟩ := hr
  rw [toC_reim]
  rw [nth_roots_c] at hw
  simp only [List.mem_map, List.mem_range] at hw
  obtain ⟨k, hk, rfl⟩ := hw
  rw [map_mul Complex.abs, Complex.abs_exp_ofReal_mul_I, mul_one, abs32C,
    Complex.abs_ofReal, abs_of_nonneg (Real.rpow_nonneg (by norm_num) _),
    show ((5 : ℕ) : ℝ) = (5 : ℝ) from by norm_num, r32fifth]

theorem root32At_lt5 (k : ℕ) (hk : k < 5) :
    root32At k = ((2 : ℝ) : ℂ) *
      Complex.exp ((((Complex.arg ((32 : ℝ) : ℂ) + 2 * Real.pi * (k : ℝ))
        / 5 : ℝ) : ℂ) * Complex.I) := by
  unfold root32At monomialRoots
  rw [monomial_32_val, nth_roots_c, List.map_map]
  rw [List.getD_eq_getElem?_getD, List.getElem?_map,
    List.getElem?_range hk]
  simp only [Option.map_some', Option.getD_some, Function.comp_apply]
  rw [toC_reim, abs32C]
  norm_num [r32fifth]

theorem spacing32_holds : spacing32 := by
  intro k hk
  rw [root32At_lt5 k (by omega), root32At_lt5 (k + 1) (by omega)]
  rw [mul_assoc (((2 : ℝ) : ℂ)), ← Complex.exp_add]
  congr 1
  push_cast
  ring_nf

theorem root32At_zero : root32At 0 = ((2 : ℝ) : ℂ) := by
  rw [root32At_lt5 0 (by omega), arg32C]
  norm_num



/-- Claim C5: for every quintic (a,b,c,d,e,f) with a ≠ 0 and
b = c = d = e = 0, the classifier takes the monomial branch, returning
method "monomial" with exactly 5 roots, the 5 fifth roots of -f/a, each
an exact root of the polynomial; in particular for x^5 - 32 = 0 the
returned roots are 2 times the 5 fifth roots of unity: the first root is
2, every root has magnitude 2, and consecutive roots are spaced by the
phase exp(2 pi I/5), i.e. angular spacing 2 pi/5. -/
theorem C5_monomial_quintic (eps a b c d e f : ℝ) (ha : a ≠ 0)
    (heps : 0 ≤ eps) (hb : b = 0) (hc : c = 0) (hd : d = 0) (he : e = 0) :
    solve_poly_5_special eps a b c d e f =
      .ok (monomialRoots a f, "monomial") ∧
    (monomialRoots a f).length = 5 ∧
    monomialRootsExact a f ∧
    root32At 0 = ((2 : ℝ) : ℂ) ∧
    allAbsTwo32 ∧
    spacing32 :=
  ⟨solve_poly_5_monomial eps a b c d e f ha heps hb hc hd he,
   by unfold monomialRoots; rw [List.length_map, length_nth_roots_c],
   monomialRootsExact_holds a f ha,
   root32At_zero, allAbsTwo32_holds, spacing32_holds⟩

/-- Witness for C5 at the concrete monomial quintic x^5 - 32 = 0 (the
test case of src/quintic/test_minimal.c) with eps = 0. -/
theorem C5_witness :
    ((1 : ℝ) ≠ 0 ∧ (0 : ℝ) ≤ 0) ∧
    (solve_poly_5_special 0 1 0 0 0 0 (-32) =
      .ok (monomialRoots 1 (-32), "monomial") ∧
    (monomialRoots 1 (-32)).length = 5 ∧
    monomialRootsExact 1 (-32) ∧
    root32At 0 = ((2 : ℝ) : ℂ) ∧
    allAbsTwo32 ∧
    spacing32) :=
  ⟨⟨by norm_num, le_refl 0⟩,
   C5_monomial_quintic 0 1 0 0 0 0 (-32) (by norm_num) (le_refl 0)
     rfl rfl rfl rfl⟩



/-- Executable absolute value on the exact rationals modelling the
doubles of the Newton component. -/
def qabs (x : ℚ) : ℚ := if x < 0 then -x else x

theorem qabs_eq_abs (x : ℚ) : qabs x = |x| := by
  unfold qabs
  by_cases hx : x < 0
  · rw [if_pos hx, abs_of_neg hx]
  · rw [if_neg hx, abs_of_nonneg (le_of_not_lt hx)]

/-- Horner evaluation of a rational polynomial, coefficients highest
degree first (the coefficient representation of spec section 3). -/
def qpoly (cs : List ℚ) (x : ℚ) : ℚ :=
  cs.foldl (fun acc c => acc * x + c) 0

/-- Coefficients of the derivative polynomial, highest degree first. -/
def polyDeriv (cs : List ℚ) : List ℚ :=
  (cs.enum.map (fun p => p.2 * ((cs.length - 1 - p.1 : ℕ) : ℚ))).dropLast

/-- Outcome of one Newton-Raphson root-finding phase. -/
inductive IterOutcome where
  | found (x : ℚ) (fuelLeft : ℕ)
  | noConv
  | divZero
deriving DecidableEq

/-- Modelled from the spec: one root-finding phase of the Iterative
Refinement component (the newton_quintic assembly routine declared in
src/quintic/src/test_quintic_main.c, body absent from src/), spec 4.6:
iterate x ← x - P(x)/P'(x); convergence when |P(x)| < eps or the step
|x_next - x| < eps; a near-zero derivative |P'(x)| < eps without
convergence triggers one perturbed restart (from x + 1), and is surfaced
as DivisionByZero only when it strikes again after that restart; the
Bool component of the result records whether the perturbed restart was
used. -/
def newtonLoop (cs dcs : List ℚ) (eps : ℚ) :
    ℕ → Bool → ℚ → IterOutcome × Bool
  | 0, r, _ => (.noConv, r)
  | fuel + 1, r, x =>
    if qabs (qpoly cs x) < eps then (.found x fuel, r)
    else if qabs (qpoly dcs x) < eps then
      if r then (.divZero, r)
      else newtonLoop cs dcs eps fuel true (x + 1)
    else
      if qabs ((x - qpoly cs x / qpoly dcs x) - x) < eps then
        (.found (x - qpoly cs x / qpoly dcs x) fuel, r)
      else newtonLoop cs dcs eps fuel r (x - qpoly cs x / qpoly dcs x)

/-- Quotient coefficients of the synthetic division by (x - r)
(spec 4.6 deflation). -/
def synthDiv : List ℚ → ℚ → ℚ → List ℚ
  | [], _, _ => []
  | c :: rest, r, carry => (c + r * carry) :: synthDiv rest r (c + r * carry)

/-- Deflate a polynomial by a found root (spec 4.6). -/
def deflate (cs : List ℚ) (r : ℚ) : List ℚ :=
  synthDiv cs.dropLast r 0

/-- ConvergenceRecord of spec section 3: iterations used, residual
magnitude and the converged flag. -/
structure ConvergenceRecord where
  iterations : ℕ
  residual : ℚ
  converged : Bool
deriving DecidableEq

/-- Result of the full Iterative Refinement component: success,
NonConvergence with the partial root list found so far plus a
ConvergenceRecord, or DivisionByZero with the partial root list. -/
inductive NewtonResult where
  | success (roots : List ℚ) (record : ConvergenceRecord)
  | nonConvergence (foundSoFar : List ℚ) (record : ConvergenceRecord)
  | divisionByZero (foundSoFar : List ℚ)
deriving DecidableEq

/-- Modelled from the spec: the deflation driver of Iterative Refinement
(spec 4.6): find one root by Newton iteration, deflate by synthetic
division, and repeat on the quotient until degree 0 or the shared
iteration budget M is exhausted; exceeding the budget surfaces
NonConvergence carrying the roots found so far and a ConvergenceRecord
with converged = false; a doubly-struck stationary point surfaces
DivisionByZero with the roots found so far. -/
def newton_solve (eps x0 : ℚ) :
    ℕ → List ℚ → ℕ → ℕ → List ℚ → NewtonResult
  | 0, _, _, used, acc => .success acc ⟨used, 0, true⟩
  | k + 1, cs, fuel, used, acc =>
    if cs.length ≤ 1 then .success acc ⟨used, 0, true⟩
    else
      match newtonLoop cs (polyDeriv cs) eps fuel false x0 with
      | (.found r fuelLeft, _) =>
          newton_solve eps x0 k (deflate cs r) fuelLeft
            (used + (fuel - fuelLeft)) (acc ++ [r])
      | (.noConv, _) =>
          .nonConvergence acc ⟨used + fuel, qabs (qpoly cs x0), false⟩
      | (.divZero, _) => .divisionByZero acc

/-- The status encoding consumed by main of
src/quintic/src/test_quintic_main.c: 0 success, 1 non-convergence,
2 division by zero. -/
def statusCode : NewtonResult → ℕ
  | .success _ _ => 0
  | .nonConvergence _ _ => 1
  | .divisionByZero _ => 2

/-- The exit-code dispatch of main in src/quintic/src/test_quintic_main.c:
each return code of newton_quintic is propagated unchanged as the
process exit code (0, 1, 2, or the unknown code itself). -/
def newton_quintic_exit (r : ℕ) : ℕ :=
  if r = 0 then 0 else if r = 1 then 1 else if r = 2 then 2 else r

/-- The general quintic x^5 - 5x^4 + 5x^3 + 5x^2 - 5x - 1 of the test
catalogue (src/quintic/src/main.c, test_cases[2]). -/
def generalQuintic : List ℚ := [1, -5, 5, 5, -5, -1]

/-- The Newton phase converged within the budget to a (real, rational)
point whose exact residual magnitude is below eps. -/
def convergedWithin (cs : List ℚ) (eps : ℚ) (m : ℕ) (x0 : ℚ) : Bool :=
  match (newtonLoop cs (polyDeriv cs) eps m false x0).1 with
  | .found r _ => decide (qabs (qpoly cs r) < eps)
  | _ => false

theorem newtonLoop_divZero_restarted (cs dcs : List ℚ) (eps : ℚ) :
    ∀ (fuel : ℕ) (r : Bool) (x : ℚ) (o : Bool),
      newtonLoop cs dcs eps fuel r x = (.divZero, o) → o = true := by
  intro fuel
  induction fuel with
  | zero =>
    intro r x o h
    simp [newtonLoop] at h
  | succ fuel ih =>
    intro r x o h
    unfold newtonLoop at h
    split_ifs at h with h1 h2 h3 h4
    · simp at h
    · simp at h
      rw [← h]
      exact h3
    · exact ih true (x + 1) o h
    · simp at h
    · exact ih r (x - qpoly cs x / qpoly dcs x) o h

theorem newton_solve_nonconv (eps x0 : ℚ) :
    ∀ (k : ℕ) (cs : List ℚ) (fuel used : ℕ) (acc ps : List ℚ)
      (record : ConvergenceRecord),
      newton_solve eps x0 k cs fuel used acc = .nonConvergence ps record →
      record.converged = false := by
  intro k
  induction k with
  | zero =>
    intro cs fuel used acc ps record h
    simp [newton_solve] at h
  | succ k ih =>
    intro cs fuel used acc ps record h
    unfold newton_solve at h
    by_cases hlen : cs.length ≤ 1
    · rw [if_pos hlen] at h
      have h' : NewtonResult.success acc ⟨used, 0, true⟩ =
          .nonConvergence ps record := h
      exact absurd h' (by simp)
    · rw [if_neg hlen] at h
      rcases hloop : newtonLoop cs (polyDeriv cs) eps fuel false x0
        with ⟨out, flag⟩
      rw [hloop] at h
      cases out with
      | found r fuelLeft =>
        exact ih _ _ _ _ _ _ h
      | noConv =>
        have h' : NewtonResult.nonConvergence acc
            ⟨used + fuel, qabs (qpoly cs x0), false⟩ =
            .nonConvergence ps record := h
        injection h' with h1 h2
        rw [← h2]
      | divZero =>
        have h' : NewtonResult.divisionByZero acc =
            .nonConvergence ps record := h
        exact absurd h' (by simp)



set_option maxRecDepth 10000 in
unseal Rat.add Rat.mul Rat.sub Rat.inv in
/-- Claim C6: on the general quintic x^5 - 5x^4 + 5x^3 + 5x^2 - 5x - 1,
the quintic classifier reports 0 roots with method "general", and the
subsequent Iterative Refinement run (eps = 1e-9, cap 100, started from
the default guess 0) converges to a real root whose exact residual is
below eps, well within the 100-iteration budget. -/
theorem C6_general_quintic :
    solve_poly_5_special (1/1000000000) 1 (-5) 5 5 (-5) (-1) =
      .ok ([], "general") ∧
    convergedWithin generalQuintic (1/1000000000) 100 0 = true := by
  constructor
  · have hb5 : ¬ (|(-5 : ℝ)| ≤ 1/1000000000 ∧ |(5 : ℝ)| ≤ 1/1000000000 ∧
        |(5 : ℝ)| ≤ 1/1000000000 ∧ |(-5 : ℝ)| ≤ 1/1000000000) := by
      intro h
      have := h.1
      rw [abs_of_nonpos (by norm_num)] at this
      linarith
    have hf : ¬ |(-1 : ℝ)| ≤ 1/1000000000 := by
      rw [abs_of_nonpos (by norm_num)]
      norm_num
    have hb3 : ¬ (|(-5 : ℝ)| ≤ 1/1000000000 ∧ |(5 : ℝ)| ≤ 1/1000000000 ∧
        |(5 : ℝ)| ≤ 1/1000000000) := by
      intro h
      have := h.1
      rw [abs_of_nonpos (by norm_num)] at this
      linarith
    unfold solve_poly_5_special
    rw [if_neg (by norm_num : ¬ (1 : ℝ) = 0), if_neg hb5, if_neg hf,
      if_neg hb3]
  · decide

/-- Claim C7: the Iterative Refinement component fails in exactly the two
spec'd ways, and the statuses are distinguishable: a DivisionByZero
outcome of the Newton loop can only carry restarted = true (the one
perturbed restart was attempted before surfacing); a NonConvergence
result of the deflation driver always carries a ConvergenceRecord with
converged = false together with the partial root list; and the three
statuses map to the three distinct return codes 0, 1, 2 that main of
src/quintic/src/test_quintic_main.c propagates as distinct exit codes. -/
theorem C7_newton_failure_modes (cs dcs acc ps : List ℚ)
    (eps x0 x : ℚ) (k fuel used : ℕ) (r o : Bool)
    (roots : List ℚ) (record : ConvergenceRecord) :
    (newtonLoop cs dcs eps fuel r x = (.divZero, o) → o = true) ∧
    (newton_solve eps x0 k cs fuel used acc = .nonConvergence ps record →
      record.converged = false) ∧
    statusCode (.success roots record) = 0 ∧
    statusCode (.nonConvergence ps record) = 1 ∧
    statusCode (.divisionByZero ps) = 2 ∧
    newton_quintic_exit (statusCode (.success roots record)) = 0 ∧
    newton_quintic_exit (statusCode (.nonConvergence ps record)) = 1 ∧
    newton_quintic_exit (statusCode (.divisionByZero ps)) = 2 :=
  ⟨fun h => newtonLoop_divZero_restarted cs dcs eps fuel r x o h,
   fun h => newton_solve_nonconv eps x0 k cs fuel used acc ps record h,
   rfl, rfl, rfl, rfl, rfl, rfl⟩

unseal Rat.add Rat.mul Rat.sub Rat.inv in
/-- Witness for C7: the constant polynomial P = 1 (derivative 0) makes a
restarted Newton loop surface DivisionByZero, and applying the theorem
to that concrete run discharges its hypotheses. -/
theorem C7_witness :
    newtonLoop [(1 : ℚ)] [] (1/2) 1 true 0 = (.divZero, true) ∧
    (true : Bool) = true ∧
    statusCode (.divisionByZero ([] : List ℚ)) = 2 ∧
    newton_quintic_exit (statusCode (.divisionByZero ([] : List ℚ))) = 2 :=
  ⟨by decide,
   (C7_newton_failure_modes [1] [] [] [] (1/2) 0 0 0 1 0 true true []
       ⟨0, 0, true⟩).1 (by decide),
   (C7_newton_failure_modes [1] [] [] [] (1/2) 0 0 0 1 0 true true []
       ⟨0, 0, true⟩).2.2.2.2.1,
   (C7_newton_failure_modes [1] [] [] [] (1/2) 0 0 0 1 0 true true []
       ⟨0, 0, true⟩).2.2.2.2.2.2.2⟩



/-- The persistent command-loop state of src/src/main.c: the static
coefficient cells a, b, c and the static root cells r1/r2 (lines 11-14
of the source). -/
structure DSKYState where
  a : ℝ
  b : ℝ
  c : ℝ
  r1re : ℝ
  r1im : ℝ
  r2re : ℝ
  r2im : ℝ

/-- The VERB/NOUN commands dispatched by main of src/src/main.c:
(10,1) load coefficients, (20,1) solve, (30,1) display, 99 exit,
anything else invalid. -/
inductive Command where
  | load (a b c : ℝ)
  | solve
  | display
  | exitCmd
  | invalid

/-- The four root cells as a function of the coefficients alone. -/
noncomputable def rootQuad (eps a b c : ℝ) : ℝ × ℝ × ℝ × ℝ :=
  match solve_poly_2 eps a b c with
  | .ok [r1, r2] => (r1.re, r1.im, r2.re, r2.im)
  | .ok [r] => (r.re, r.im, r.re, r.im)
  | _ => (0, 0, 0, 0)

/-- The root-cell update performed by the solve command of
src/src/main.c: the solver writes both root cells on success (a double
root fills both cells with the same value, as the 2-root out-parameter
interface requires); on DegenerateInput no root output is produced and
the cells keep their previous values. -/
noncomputable def writeRoots (eps : ℝ) (s : DSKYState) : DSKYState :=
  match solve_poly_2 eps s.a s.b s.c with
  | .ok [r1, r2] =>
      { s with r1re := r1.re, r1im := r1.im, r2re := r2.re, r2im := r2.im }
  | .ok [r] =>
      { s with r1re := r.re, r1im := r.im, r2re := r.re, r2im := r.im }
  | _ => s

/-- One step of the VERB/NOUN dispatch of main in src/src/main.c: load
overwrites the coefficient cells, solve invokes the quadratic solver on
the current coefficients and stores the returned roots in the root
cells, and display/exit/invalid leave the state unchanged. -/
noncomputable def dsky_step (eps : ℝ) (s : DSKYState) : Command → DSKYState
  | .load a b c => { s with a := a, b := b, c := c }
  | .solve => writeRoots eps s
  | .display => s
  | .exitCmd => s
  | .invalid => s

theorem writeRoots_eq (eps : ℝ) (s : DSKYState) (ha : s.a ≠ 0) :
    writeRoots eps s =
      { s with r1re := (rootQuad eps s.a s.b s.c).1,
               r1im := (rootQuad eps s.a s.b s.c).2.1,
               r2re := (rootQuad eps s.a s.b s.c).2.2.1,
               r2im := (rootQuad eps s.a s.b s.c).2.2.2 } := by
  unfold writeRoots rootQuad
  by_cases h1 : eps < s.b ^ 2 - 4 * s.a * s.c
  · rw [solve_poly_2_branch_pos eps s.a s.b s.c ha h1]
  · by_cases h2 : |s.b ^ 2 - 4 * s.a * s.c| ≤ eps
    · rw [solve_poly_2_branch_zero eps s.a s.b s.c ha h2]
    · unfold solve_poly_2
      rw [if_neg ha, if_neg h1, if_neg h2]

/-- Claim C9: the solve step is deterministic and independent of stale
state: two states with the same coefficients (and possibly different
leftover root cells) produce identical root cells after solve, and
re-solving the same already-solved state reproduces the state exactly
(idempotence of re-solving with the same coefficients and the same
tolerance). -/
theorem C9_solve_deterministic (eps : ℝ) (s1 s2 : DSKYState)
    (hab : s1.a = s2.a) (hb : s1.b = s2.b) (hc : s1.c = s2.c)
    (ha : s1.a ≠ 0) :
    ((dsky_step eps s1 .solve).r1re = (dsky_step eps s2 .solve).r1re ∧
     (dsky_step eps s1 .solve).r1im = (dsky_step eps s2 .solve).r1im ∧
     (dsky_step eps s1 .solve).r2re = (dsky_step eps s2 .solve).r2re ∧
     (dsky_step eps s1 .solve).r2im = (dsky_step eps s2 .solve).r2im) ∧
    dsky_step eps (dsky_step eps s1 .solve) .solve =
      dsky_step eps s1 .solve := by
  have ha2 : s2.a ≠ 0 := by
    rw [← hab]
    exact ha
  have h1 := writeRoots_eq eps s1 ha
  have h2 := writeRoots_eq eps s2 ha2
  constructor
  · show (writeRoots eps s1).r1re = (writeRoots eps s2).r1re ∧
      (writeRoots eps s1).r1im = (writeRoots eps s2).r1im ∧
      (writeRoots eps s1).r2re = (writeRoots eps s2).r2re ∧
      (writeRoots eps s1).r2im = (writeRoots eps s2).r2im
    rw [h1, h2, hab, hb, hc]
    exact ⟨rfl, rfl, rfl, rfl⟩
  · show writeRoots eps (writeRoots eps s1) = writeRoots eps s1
    rw [h1]
    have ha' : (({ s1 with
        r1re := (rootQuad eps s1.a s1.b s1.c).1,
        r1im := (rootQuad eps s1.a s1.b s1.c).2.1,
        r2re := (rootQuad eps s1.a s1.b s1.c).2.2.1,
        r2im := (rootQuad eps s1.a s1.b s1.c).2.2.2 } : DSKYState)).a ≠ 0 :=
      ha
    rw [writeRoots_eq eps _ ha']

/-- Witness for C9: two states sharing the coefficients of x^2 - 5 but
holding different stale root cells. -/
theorem C9_witness :
    ((⟨1, 0, -5, 9, 9, 9, 9⟩ : DSKYState).a =
      (⟨1, 0, -5, 0, 0, 0, 0⟩ : DSKYState).a ∧
     (⟨1, 0, -5, 9, 9, 9, 9⟩ : DSKYState).b =
      (⟨1, 0, -5, 0, 0, 0, 0⟩ : DSKYState).b ∧
     (⟨1, 0, -5, 9, 9, 9, 9⟩ : DSKYState).c =
      (⟨1, 0, -5, 0, 0, 0, 0⟩ : DSKYState).c ∧
     (⟨1, 0, -5, 9, 9, 9, 9⟩ : DSKYState).a ≠ 0) ∧
    (((dsky_step 1 ⟨1, 0, -5, 9, 9, 9, 9⟩ .solve).r1re =
        (dsky_step 1 ⟨1, 0, -5, 0, 0, 0, 0⟩ .solve).r1re ∧
      (dsky_step 1 ⟨1, 0, -5, 9, 9, 9, 9⟩ .solve).r1im =
        (dsky_step 1 ⟨1, 0, -5, 0, 0, 0, 0⟩ .solve).r1im ∧
      (dsky_step 1 ⟨1, 0, -5, 9, 9, 9, 9⟩ .solve).r2re =
        (dsky_step 1 ⟨1, 0, -5, 0, 0, 0, 0⟩ .solve).r2re ∧
      (dsky_step 1 ⟨1, 0, -5, 9, 9, 9, 9⟩ .solve).r2im =
        (dsky_step 1 ⟨1, 0, -5, 0, 0, 0, 0⟩ .solve).r2im) ∧
     dsky_step 1 (dsky_step 1 ⟨1, 0, -5, 9, 9, 9, 9⟩ .solve) .solve =
       dsky_step 1 ⟨1, 0, -5, 9, 9, 9, 9⟩ .solve) :=
  ⟨⟨rfl, rfl, rfl, by norm_num⟩,
   C9_solve_deterministic 1 ⟨1, 0, -5, 9, 9, 9, 9⟩ ⟨1, 0, -5, 0, 0, 0, 0⟩
     rfl rfl rfl (by norm_num)⟩


end DSKYpoly
